import Mathlib

/-!
Verification of `src/plot_regions_covariance.py`, a single-file fMRI
connectivity pipeline: confound extraction, signal cleaning, region-wise
aggregation, sparse covariance estimation and display.

Modelling conventions.
Machine floats are modelled as exact rationals; the abnormal IEEE values
NaN and plus or minus infinity produced by division by zero are modelled
as `none` in `Option ℚ`.  Standard deviations are square roots of
variances and are therefore generally irrational; wherever the source
divides by a standard deviation, the divisor enters as an explicit
parameter constrained by `isStd` (nonnegative, and its square is the
variance), so every statement is about exactly the quantity numpy
computes.  Matrices are row-major lists of rows unless a definition says
otherwise.
-/

/-- Arithmetic mean of a list of rationals (numpy `mean` over an axis).
numpy returns NaN on an empty slice; here the value is `x / 0 = 0` and the
theorems carry nonemptiness hypotheses wherever that matters. -/
def meanL (xs : List ℚ) : ℚ := xs.sum / (xs.length : ℚ)

/-- Population variance (numpy `var` / the square of numpy `std`,
with `ddof = 0`). -/
def varL (xs : List ℚ) : ℚ :=
  ((xs.map fun x => (x - meanL xs) * (x - meanL xs)).sum) / (xs.length : ℚ)

/-- `s` is the numpy standard deviation of `xs`: the nonnegative square
root of the population variance. -/
def isStd (xs : List ℚ) (s : ℚ) : Prop := 0 ≤ s ∧ s * s = varL xs

instance (xs : List ℚ) (s : ℚ) : Decidable (isStd xs s) := by
  unfold isStd; infer_instance

/-- Column `j` of a row-major matrix (out-of-range entries default to 0;
the source arrays are rectangular). -/
def colL (m : List (List ℚ)) (j : Nat) : List ℚ := m.map fun row => row.getD j 0

/-- Number of columns of a row-major matrix. -/
def ncols (m : List (List ℚ)) : Nat := (m.headD []).length

/-- Float division as broadcast by numpy in `region_ts /= region_ts.std(axis=0)`
(src line 102): dividing by a zero standard deviation yields NaN (for a zero
numerator) or a signed infinity (otherwise); both abnormal results are
modelled as `none`.  numpy emits at most a warning here — no exception is
raised and the program continues with the abnormal values in the matrix. -/
def fdiv (x s : ℚ) : Option ℚ := if s = 0 then none else some (x / s)

/-- `stds` is the vector numpy computes as `m.std(axis=0)`: one standard
deviation per column. -/
def isStdVec (m : List (List ℚ)) (stds : List ℚ) : Prop :=
  stds.length = ncols m ∧ ∀ j, j < stds.length → isStd (colL m j) (stds.getD j 0)

instance (m : List (List ℚ)) (stds : List ℚ) : Decidable (isStdVec m stds) := by
  unfold isStdVec; infer_instance

/-- The in-place column normalization `region_ts /= region_ts.std(axis=0)`
(src line 102): every entry of column `j` is divided by `stds[j]`. -/
def divByStd (m : List (List ℚ)) (stds : List ℚ) : List (List (Option ℚ)) :=
  m.map fun row => List.zipWith fdiv row stds

/-- C1: the claim states that a region whose aggregated time series has zero
standard deviation makes the region-aggregation step raise an explicit error
instead of silently producing NaN/Inf.  The code has no such check: on a
region-series matrix whose first column is constant (standard deviation 0),
line 102 divides by zero and returns a matrix containing abnormal values
(`none`); no error path exists in the step.  The second column shows the
normal case for contrast. -/
theorem C1_zero_std_region_silently_yields_nan :
    isStdVec [[1, 2], [1, 3]] [0, 1/2]
      ∧ divByStd [[1, 2], [1, 3]] [0, 1/2]
          = [[none, some 4], [none, some 6]] := by
  refine ⟨⟨rfl, ?_⟩, ?_⟩
  · intro j hj
    have hj2 : j < 2 := by simpa using hj
    interval_cases j <;>
      refine ⟨by norm_num, ?_⟩ <;>
      norm_num [varL, meanL, colL]
  · norm_num [divByStd, fdiv]

/-- Value of `(l.map f).getD` below the length: the list default never
matters there. -/
theorem getD_map_of_lt {α β : Type} (f : α → β) (l : List α) (i : Nat)
    (hi : i < l.length) (d : β) (a : α) :
    (l.map f).getD i d = f (l.getD i a) := by
  induction l generalizing i with
  | nil => simp at hi
  | cons x xs ih =>
    cases i with
    | zero => rfl
    | succ n => simpa using ih n (by simpa using hi)

/-- Value of `(List.zipWith f as bs).getD` below both lengths. -/
theorem getD_zipWith_of_lt {α β γ : Type} (f : α → β → γ) (as : List α)
    (bs : List β) (i : Nat) (ha : i < as.length) (hb : i < bs.length)
    (d : γ) (a : α) (b : β) :
    (List.zipWith f as bs).getD i d = f (as.getD i a) (bs.getD i b) := by
  induction as generalizing bs i with
  | nil => simp at ha
  | cons x xs ih =>
    cases bs with
    | nil => simp at hb
    | cons y ys =>
      cases i with
      | zero => rfl
      | succ n => simpa using ih ys n (by simpa using ha) (by simpa using hb)

/-- Sums of pointwise quotients pull the constant divisor out. -/
theorem list_sum_div {α : Type} (f : α → ℚ) (c : ℚ) (l : List α) :
    (l.map fun x => f x / c).sum = (l.map f).sum / c := by
  induction l with
  | nil => simp
  | cons x xs ih => simp [ih, add_div]

/-- Mean rescales under pointwise division. -/
theorem meanL_map_div (xs : List ℚ) (s : ℚ) :
    meanL (xs.map fun x => x / s) = meanL xs / s := by
  unfold meanL
  rw [List.length_map, show (xs.map fun x => x / s) = xs.map fun x => id x / s from rfl,
    list_sum_div, List.map_id, div_right_comm]

/-- Population variance rescales by the square under pointwise division
(true also for a zero divisor, where both sides collapse to 0). -/
theorem varL_map_div (xs : List ℚ) (s : ℚ) :
    varL (xs.map fun x => x / s) = varL xs / (s * s) := by
  unfold varL
  rw [List.length_map, List.map_map, meanL_map_div]
  have h1 : ((fun x => (x - meanL xs / s) * (x - meanL xs / s)) ∘ fun x => x / s)
      = fun x => ((x - meanL xs) * (x - meanL xs)) / (s * s) := by
    funext x
    simp only [Function.comp_apply, div_sub_div_same, div_mul_div_comm]
  rw [h1, show (xs.map fun x => (x - meanL xs) * (x - meanL xs) / (s * s))
      = xs.map fun x => (fun y => (y - meanL xs) * (y - meanL xs)) x / (s * s) from rfl,
    list_sum_div, div_right_comm]

/-- Modelled from the spec: `nisl.region.signals_from_labels` (called at src
line 101) is not under `src/`.  Per section 4.3 the aggregator works from a
labeled atlas; here `cols` is one time series per voxel (column-major) and
`labels` assigns each voxel its region label, so the series belonging to
region `lab` are the voxel series carrying that label.  A voxel carries
exactly one label, so distinct regions are disjoint by construction. -/
def memberSeries (labels : List Nat) (lab : Nat) (cols : List (List ℚ)) :
    List (List ℚ) :=
  (cols.zip labels).filterMap fun p => if p.2 = lab then some p.1 else none

/-- Modelled from the spec: the aggregated time series of one region — at
each of the `T` time points, the mean over the member voxels.  numpy would
produce NaN for a region with zero voxels; here the empty mean is `0 / 0 = 0`
and the theorems about normal operation assume nonempty membership. -/
def regionSeries (T : Nat) (labels : List Nat) (lab : Nat)
    (cols : List (List ℚ)) : List ℚ :=
  (List.range T).map fun t =>
    ((memberSeries labels lab cols).map fun c => c.getD t 0).sum
      / ((memberSeries labels lab cols).length : ℚ)

/-- The spec words for the aggregation output, stated independently: "the
arithmetic mean of the constituent voxel time series" — the pointwise sum of
the member series scaled by one over their count. -/
def specMeanSeries (T : Nat) (mem : List (List ℚ)) : List ℚ :=
  (List.range T).map fun t =>
    (1 / (mem.length : ℚ)) * ((mem.map fun c => c.getD t 0).sum)

/-- Modelled from the spec: region-major output of the aggregation — one
aggregated series per entry of `regionLabs`. -/
def signals_from_labels (T : Nat) (labels : List Nat) (regionLabs : List Nat)
    (cols : List (List ℚ)) : List (List ℚ) :=
  regionLabs.map fun lab => regionSeries T labels lab cols

/-- The region step of the script (src lines 101–102): aggregation followed
by the in-place division of each region series by its own standard deviation
(`region_ts /= region_ts.std(axis=0)`), the divisor supplied as `stds`. -/
def regionStep (T : Nat) (labels : List Nat) (regionLabs : List Nat)
    (cols : List (List ℚ)) (stds : List ℚ) : List (List (Option ℚ)) :=
  List.zipWith (fun series s => series.map fun x => fdiv x s)
    (signals_from_labels T labels regionLabs cols) stds

/-- C2: for disjoint, nonempty regions the aggregator emits, per region, the
arithmetic mean series of its voxels; after division by that series own
standard deviation `s` (nonzero, `s * s` = the series variance), the output
column is exactly the mean series scaled by `1 / s` and has unit variance. -/
theorem C2_region_aggregation_unit_variance (T : Nat)
    (labels regionLabs : List Nat) (cols : List (List ℚ)) (stds : List ℚ)
    (r : Nat) (hr : r < regionLabs.length) (hrs : r < stds.length)
    (hne : memberSeries labels (regionLabs.getD r 0) cols ≠ [])
    (hs : isStd (regionSeries T labels (regionLabs.getD r 0) cols)
      (stds.getD r 0))
    (hs0 : stds.getD r 0 ≠ 0) :
    (signals_from_labels T labels regionLabs cols).getD r []
        = specMeanSeries T (memberSeries labels (regionLabs.getD r 0) cols)
      ∧ (regionStep T labels regionLabs cols stds).getD r []
          = (regionSeries T labels (regionLabs.getD r 0) cols).map
              (fun x => some (x / stds.getD r 0))
      ∧ varL ((regionSeries T labels (regionLabs.getD r 0) cols).map
            fun x => x / stds.getD r 0) = 1 := by
  have hsig : (signals_from_labels T labels regionLabs cols).getD r []
      = regionSeries T labels (regionLabs.getD r 0) cols := by
    unfold signals_from_labels
    exact getD_map_of_lt _ regionLabs r hr [] 0
  refine ⟨?_, ?_, ?_⟩
  · rw [hsig]
    unfold regionSeries specMeanSeries
    have : (fun t => ((memberSeries labels (regionLabs.getD r 0) cols).map
          fun c => c.getD t 0).sum
            / ((memberSeries labels (regionLabs.getD r 0) cols).length : ℚ))
        = fun t => (1 / ((memberSeries labels (regionLabs.getD r 0) cols).length : ℚ))
            * ((memberSeries labels (regionLabs.getD r 0) cols).map
                fun c => c.getD t 0).sum := by
      funext t
      rw [one_div_mul_eq_div]
    rw [this]
  · unfold regionStep
    have hlen : r < (signals_from_labels T labels regionLabs cols).length := by
      unfold signals_from_labels
      simpa using hr
    rw [getD_zipWith_of_lt _ _ _ r hlen hrs [] [] 0, hsig]
    have : (fun x => fdiv x (stds.getD r 0))
        = fun x => some (x / stds.getD r 0) := by
      funext x
      exact if_neg hs0
    rw [this]
  · rw [varL_map_div, ← hs.2, div_self (mul_ne_zero hs0 hs0)]

/-- Witness for C2 at a concrete input: two voxels both labeled 1, series
`[0,0]` and `[2,4]`; the region mean series is `[1,2]`, its standard
deviation is `1/2`, and the normalized series `[2,4]` has variance 1. -/
theorem C2_region_aggregation_unit_variance_witness :
    ((0 : Nat) < [1].length ∧ (0 : Nat) < [(1 : ℚ)/2].length
      ∧ memberSeries [1, 1] ([1].getD 0 0) [[0, 0], [2, 4]] ≠ []
      ∧ isStd (regionSeries 2 [1, 1] ([1].getD 0 0) [[0, 0], [2, 4]])
          ([(1 : ℚ)/2].getD 0 0)
      ∧ [(1 : ℚ)/2].getD 0 0 ≠ 0)
    ∧ ((signals_from_labels 2 [1, 1] [1] [[0, 0], [2, 4]]).getD 0 []
        = specMeanSeries 2 (memberSeries [1, 1] ([1].getD 0 0) [[0, 0], [2, 4]])
      ∧ (regionStep 2 [1, 1] [1] [[0, 0], [2, 4]] [(1 : ℚ)/2]).getD 0 []
          = (regionSeries 2 [1, 1] ([1].getD 0 0) [[0, 0], [2, 4]]).map
              (fun x => some (x / [(1 : ℚ)/2].getD 0 0))
      ∧ varL ((regionSeries 2 [1, 1] ([1].getD 0 0) [[0, 0], [2, 4]]).map
            fun x => x / [(1 : ℚ)/2].getD 0 0) = 1) := by
  have hmem : memberSeries [1, 1] 1 [[0, 0], [2, 4]]
      = [[0, 0], [2, 4]] := by
    norm_num [memberSeries, List.filterMap_cons]
  have hser : regionSeries 2 [1, 1] ([1].getD 0 0) [[0, 0], [2, 4]]
      = [1, 2] := by
    norm_num [regionSeries, hmem, List.range_succ]
  have hstd : isStd (regionSeries 2 [1, 1] ([1].getD 0 0) [[0, 0], [2, 4]])
      ([(1 : ℚ)/2].getD 0 0) := by
    rw [hser]
    refine ⟨by norm_num, ?_⟩
    norm_num [varL, meanL]
  have hne : memberSeries [1, 1] ([1].getD 0 0) [[0, 0], [2, 4]] ≠ [] := by
    show memberSeries [1, 1] 1 [[0, 0], [2, 4]] ≠ []
    rw [hmem]
    simp
  exact ⟨⟨by norm_num, by norm_num, hne, hstd, by norm_num⟩,
    C2_region_aggregation_unit_variance 2 [1, 1] [1] [[0, 0], [2, 4]]
      [(1 : ℚ)/2] 0 (by norm_num) (by norm_num) hne hstd (by norm_num)⟩

/-- Insertion into a list kept sorted by decreasing key. -/
def insertByDesc {α : Type} (key : α → ℚ) (a : α) : List α → List α
  | [] => [a]
  | b :: bs => if key b ≤ key a then a :: b :: bs else b :: insertByDesc key a bs

/-- Insertion sort by decreasing key. -/
def sortByDesc {α : Type} (key : α → ℚ) (l : List α) : List α :=
  l.foldr (insertByDesc key) []

/-- Indices of the `n` columns of `X` with the highest variance. -/
def topVarColumns (X : List (List ℚ)) (n : Nat) : List Nat :=
  (sortByDesc (fun j => varL (colL X j)) (List.range (ncols X))).take n

/-- Modelled from the spec: `nisl.signals.high_variance_confounds` (called at
src line 86) is not under `src/`.  Section 4.1 describes it as deriving a
small number of high-variance signal components from the voxel-by-time
matrix; it is modelled as reading off, at every time point (row of `X`), the
values of the `n` columns of highest variance.  Its shape contract — one
output row per input time point — is what the claims use. -/
def high_variance_confounds (X : List (List ℚ)) (n : Nat) : List (List ℚ) :=
  X.map fun row => (topVarColumns X n).map fun j => row.getD j 0

/-- `np.loadtxt(confound_file, skiprows=1)` (src line 87): the
whitespace-delimited motion-confound table with its single header row
skipped. -/
def loadtxt_skiprows1 (rows : List (List ℚ)) : List (List ℚ) := rows.drop 1

/-- `np.hstack` on two 2-D arrays (src line 88): row-wise concatenation;
numpy raises on mismatched row counts, modelled as `none`. -/
def hstack (a b : List (List ℚ)) : Option (List (List ℚ)) :=
  if a.length = b.length then some (List.zipWith (· ++ ·) a b) else none

/-- The confound-computation step of the script (src lines 83–88): derive
high-variance components from the full (trivially masked) volume, load the
motion confounds, and concatenate them column-wise. -/
def confoundsStep (fmriFlat : List (List ℚ)) (nComp : Nat)
    (confFile : List (List ℚ)) : Option (List (List ℚ)) :=
  hstack (high_variance_confounds fmriFlat nComp) (loadtxt_skiprows1 confFile)

/-- C3: when the functional volume has `T` time points and the motion file
has `T` numeric rows after its skipped header row, the confound step
succeeds, returns exactly the row-wise concatenation of the high-variance
components with the motion confounds, and the result has exactly `T` rows
whatever number of components was requested. -/
theorem C3_confound_matrix_has_T_rows (T : Nat) (fmriFlat : List (List ℚ))
    (nComp : Nat) (confFile : List (List ℚ))
    (hX : fmriFlat.length = T) (hC : (loadtxt_skiprows1 confFile).length = T) :
    ∃ C, confoundsStep fmriFlat nComp confFile = some C
      ∧ C = List.zipWith (· ++ ·) (high_variance_confounds fmriFlat nComp)
          (loadtxt_skiprows1 confFile)
      ∧ C.length = T := by
  have hhv : (high_variance_confounds fmriFlat nComp).length = T := by
    simp [high_variance_confounds, hX]
  refine ⟨_, ?_, rfl, ?_⟩
  · unfold confoundsStep hstack
    rw [if_pos (by rw [hhv, hC])]
  · rw [List.length_zipWith, hhv, hC, Nat.min_self]

/-- Witness for C3: two time points, one requested component, a motion file
with a header row plus two numeric rows. -/
theorem C3_confound_matrix_has_T_rows_witness :
    (([[1, 2], [3, 4]] : List (List ℚ)).length = 2
      ∧ (loadtxt_skiprows1 [[9, 9], [1, 0], [0, 1]]).length = 2)
    ∧ ∃ C, confoundsStep [[1, 2], [3, 4]] 1 [[9, 9], [1, 0], [0, 1]] = some C
      ∧ C = List.zipWith (· ++ ·) (high_variance_confounds [[1, 2], [3, 4]] 1)
          (loadtxt_skiprows1 [[9, 9], [1, 0], [0, 1]])
      ∧ C.length = 2 :=
  ⟨⟨rfl, rfl⟩,
    C3_confound_matrix_has_T_rows 2 [[1, 2], [3, 4]] 1 [[9, 9], [1, 0], [0, 1]]
      rfl rfl⟩

/-- Map with the element index, starting from `n`. -/
def mapIdxFrom {α β : Type} (f : Nat → α → β) : Nat → List α → List β
  | _, [] => []
  | n, x :: xs => f n x :: mapIdxFrom f (n + 1) xs

/-- Indexed map preserves length. -/
theorem length_mapIdxFrom {α β : Type} (f : Nat → α → β) (n : Nat)
    (l : List α) : (mapIdxFrom f n l).length = l.length := by
  induction l generalizing n with
  | nil => rfl
  | cons x xs ih => simp [mapIdxFrom, ih]

/-- Row-length profile of an indexed map whose entries preserve length. -/
theorem mapIdxFrom_map_length {α β : Type} (g : Nat → List α → List β)
    (hg : ∀ n r, (g n r).length = r.length) (n : Nat) (l : List (List α)) :
    (mapIdxFrom g n l).map List.length = l.map List.length := by
  induction l generalizing n with
  | nil => rfl
  | cons x xs ih => simp [mapIdxFrom, hg, ih]

/-- Value of an indexed map below the length. -/
theorem getD_mapIdxFrom_lt {α β : Type} (f : Nat → α → β) (n : Nat)
    (l : List α) (i : Nat) (hi : i < l.length) (d : β) (a : α) :
    (mapIdxFrom f n l).getD i d = f (n + i) (l.getD i a) := by
  induction l generalizing n i with
  | nil => simp at hi
  | cons x xs ih =>
    cases i with
    | zero => simp [mapIdxFrom]
    | succ m =>
      show (mapIdxFrom f (n + 1) xs).getD m d = f (n + (m + 1)) (xs.getD m a)
      rw [ih (n + 1) m (by simpa using hi)]
      have : n + 1 + m = n + (m + 1) := by omega
      rw [this]

/-- The parameters of `nisl.signals.clean` that the script passes. -/
structure CleanParams where
  low_pass : Option ℚ
  detrend : Bool
  standardize : Bool
  t_r : ℚ
  high_pass : Option ℚ

/-- The exact keyword arguments of the `nisl.signals.clean` call at src
lines 93 to 97: `low_pass=None, detrend=True, standardize=True, t_r=2.5,
high_pass=0.01`. -/
def scriptCleanParams : CleanParams :=
  { low_pass := none, detrend := true, standardize := true,
    t_r := 5/2, high_pass := some (1/100) }

/-- The time index as rationals. -/
def timesQ (T : Nat) : List ℚ := (List.range T).map fun t => (t : ℚ)

/-- Least-squares slope of a series against the time index (0 when the
denominator degenerates). -/
def lsSlope (xs : List ℚ) : ℚ :=
  if (((timesQ xs.length).map fun t =>
        (t - meanL (timesQ xs.length)) * (t - meanL (timesQ xs.length))).sum) = 0
  then 0
  else (List.zipWith
      (fun t x => (t - meanL (timesQ xs.length)) * (x - meanL xs))
      (timesQ xs.length) xs).sum
    / (((timesQ xs.length).map fun t =>
        (t - meanL (timesQ xs.length)) * (t - meanL (timesQ xs.length))).sum)

/-- Modelled from the spec: linear detrending of one time series — subtract
its least-squares line against the time index. -/
def detrendCol (xs : List ℚ) : List ℚ :=
  mapIdxFrom (fun t x =>
    x - ((meanL xs - lsSlope xs * meanL (timesQ xs.length))
      + lsSlope xs * (t : ℚ))) 0 xs

/-- Apply a per-column operation to a row-major matrix, rebuilding the rows;
the output shape matches the input shape by construction. -/
def mapCols (f : List ℚ → List ℚ) (X : List (List ℚ)) : List (List ℚ) :=
  mapIdxFrom (fun t row =>
    (List.range row.length).map fun j => (f (colL X j)).getD t 0) 0 X

/-- Dot product of two series. -/
def dotL (a b : List ℚ) : ℚ := (List.zipWith (· * ·) a b).sum

/-- Modelled from the spec: removal of one confound regressor from a series
by orthogonal projection (skipped for a null regressor). -/
def projOut (c xs : List ℚ) : List ℚ :=
  if dotL c c = 0 then xs
  else mapIdxFrom (fun t x => x - (dotL xs c / dotL c c) * c.getD t 0) 0 xs

/-- Modelled from the spec: "regresses out confounds" — remove each confound
column in turn. -/
def regressCols (confCols : List (List ℚ)) (xs : List ℚ) : List ℚ :=
  confCols.foldl (fun v c => projOut c v) xs

/-- The columns of the confound matrix. -/
def confColumns (C : List (List ℚ)) : List (List ℚ) :=
  (List.range (ncols C)).map fun j => colL C j

/-- Confound regression applied to every voxel column. -/
def regressM (C : List (List ℚ)) (X : List (List ℚ)) : List (List ℚ) :=
  mapCols (regressCols (confColumns C)) X

/-- Modelled from the spec: the temporal-filtering stage of
`nisl.signals.clean`; the Butterworth filter internals are not under `src/`,
so the stage is modelled as removing the lowest-frequency (constant)
component of each series whenever a high-pass cutoff is given.  Only its
position in the pipeline and its shape preservation enter the claims. -/
def filterStage (p : CleanParams) (X : List (List ℚ)) : List (List ℚ) :=
  match p.high_pass with
  | some _ => mapCols (fun xs => xs.map fun x => x - meanL xs) X
  | none => X

/-- Modelled from the spec: "standardization (unit variance, zero mean per
voxel)" — per column, subtract the mean and divide by the standard
deviation, the divisors supplied as `stds` (see `isStd`); a zero standard
deviation yields the abnormal float value `none`. -/
def standardizeWith (stds : List ℚ) (X : List (List ℚ)) :
    List (List (Option ℚ)) :=
  X.map fun row =>
    mapIdxFrom (fun j x => fdiv (x - meanL (colL X j)) (stds.getD j 0)) 0 row

/-- Modelled from the spec: `nisl.signals.clean` (called at src lines 93 to
97) is not under `src/`.  Section 4.2 fixes the operation order
detrend, then confound regression, then temporal filtering, then
standardization; the definition realizes that chain, with the parameters
toggling the stages exactly as the library call does. -/
def clean (p : CleanParams) (C : List (List ℚ)) (stds : List ℚ)
    (X : List (List ℚ)) : List (List (Option ℚ)) :=
  let x1 := if p.detrend then mapCols detrendCol X else X
  let x2 := regressM C x1
  let x3 := filterStage p x2
  if p.standardize then standardizeWith stds x3
  else x3.map fun row => row.map some

/-- Shape of a per-column operation. -/
theorem mapCols_map_length (f : List ℚ → List ℚ) (X : List (List ℚ)) :
    (mapCols f X).map List.length = X.map List.length := by
  unfold mapCols
  exact mapIdxFrom_map_length _ (fun n r => by simp) 0 X

/-- Shape of the filtering stage. -/
theorem filterStage_map_length (p : CleanParams) (X : List (List ℚ)) :
    (filterStage p X).map List.length = X.map List.length := by
  unfold filterStage
  cases p.high_pass with
  | none => rfl
  | some hp => exact mapCols_map_length _ X

/-- Shape of the standardization stage. -/
theorem standardizeWith_map_length (stds : List ℚ) (X : List (List ℚ)) :
    (standardizeWith stds X).map List.length = X.map List.length := by
  unfold standardizeWith
  rw [List.map_map]
  apply List.map_congr_left
  intro row _
  simp [length_mapIdxFrom]

/-- C4: the script invokes the signal cleaner with exactly the claimed
parameters (no low-pass, detrend on, standardize on, high-pass 0.01 Hz,
repetition time 2.5 s); the cleaner applies its stages in the fixed order
detrend, confound regression, temporal filtering, standardization; and the
cleaned matrix has the same shape as its input. -/
theorem C4_clean_params_order_and_shape (C : List (List ℚ)) (stds : List ℚ)
    (X : List (List ℚ)) :
    scriptCleanParams = { low_pass := none, detrend := true, standardize := true, t_r := 5/2, high_pass := some (1/100) }
      ∧ clean scriptCleanParams C stds X
          = standardizeWith stds (filterStage scriptCleanParams
              (regressM C (mapCols detrendCol X)))
      ∧ (clean scriptCleanParams C stds X).map List.length = X.map List.length
      ∧ (clean scriptCleanParams C stds X).length = X.length := by
  have horder : clean scriptCleanParams C stds X
      = standardizeWith stds (filterStage scriptCleanParams
          (regressM C (mapCols detrendCol X))) := rfl
  have hshape : (clean scriptCleanParams C stds X).map List.length
      = X.map List.length := by
    rw [horder, standardizeWith_map_length, filterStage_map_length]
    unfold regressM
    rw [mapCols_map_length, mapCols_map_length]
  refine ⟨rfl, horder, hshape, ?_⟩
  have := congrArg List.length hshape
  simpa using this

/-- Column mean of the region time-series matrix (`T` observations of `R`
regions). -/
def colMeanF (T R : Nat) (X : Fin T → Fin R → ℚ) (i : Fin R) : ℚ :=
  (∑ t, X t i) / (T : ℚ)

/-- Modelled from the spec: `sklearn.covariance.GraphLassoCV` (src lines
105 to 106) is an external collaborator; section 4.4 fixes its contract —
a covariance matrix over the region time series together with a precision
matrix that is its (regularized) inverse.  The covariance output is
modelled as the empirical covariance of the observations, which realizes
the contract the claims quote (square by type, symmetric, diagonal
nonnegative). -/
def empCov (T R : Nat) (X : Fin T → Fin R → ℚ) : Matrix (Fin R) (Fin R) ℚ :=
  Matrix.of fun i j =>
    (∑ t, (X t i - colMeanF T R X i) * (X t j - colMeanF T R X j)) / (T : ℚ)

/-- Modelled from the spec: the precision output — the matrix inverse of the
covariance output under the selected regularization, realized by the
adjugate formula (the inverse proper whenever the determinant is nonzero). -/
def precisionOf (R : Nat) (S : Matrix (Fin R) (Fin R) ℚ) :
    Matrix (Fin R) (Fin R) ℚ :=
  (Matrix.det S)⁻¹ • Matrix.adjugate S

/-- The two fitted attributes of the estimator the script reads
(`estimator.covariance_`, `estimator.precision_`). -/
structure GraphLassoFit (R : Nat) where
  covariance_ : Matrix (Fin R) (Fin R) ℚ
  precision_ : Matrix (Fin R) (Fin R) ℚ

/-- Modelled from the spec: `estimator.fit(region_ts)` (src line 106). -/
def fitGraphLasso (T R : Nat) (X : Fin T → Fin R → ℚ) : GraphLassoFit R :=
  { covariance_ := empCov T R X, precision_ := precisionOf R (empCov T R X) }

/-- The empirical covariance is symmetric. -/
theorem empCov_symm (T R : Nat) (X : Fin T → Fin R → ℚ) (i j : Fin R) :
    empCov T R X i j = empCov T R X j i := by
  unfold empCov
  simp only [Matrix.of_apply]
  rw [Finset.sum_congr rfl fun t _ => mul_comm _ _]

/-- The empirical covariance, as a matrix, equals its transpose. -/
theorem empCov_transpose (T R : Nat) (X : Fin T → Fin R → ℚ) :
    Matrix.transpose (empCov T R X) = empCov T R X := by
  ext i j
  rw [Matrix.transpose_apply]
  exact empCov_symm T R X j i

/-- C5: for a region time-series matrix with `T` observations and `R`
regions, `T > R`, the fitted estimator returns covariance and precision
matrices of type `Matrix (Fin R) (Fin R) ℚ` — square of size `(R, R)` by
construction — both symmetric, and every diagonal entry of the covariance
matrix is nonnegative. -/
theorem C5_fitted_covariance_invariants (T R : Nat) (X : Fin T → Fin R → ℚ)
    (hTR : R < T) :
    (∀ i j, (fitGraphLasso T R X).covariance_ i j
        = (fitGraphLasso T R X).covariance_ j i)
      ∧ (∀ i, 0 ≤ (fitGraphLasso T R X).covariance_ i i)
      ∧ (∀ i j, (fitGraphLasso T R X).precision_ i j
          = (fitGraphLasso T R X).precision_ j i) := by
  refine ⟨fun i j => empCov_symm T R X i j, fun i => ?_, fun i j => ?_⟩
  · show 0 ≤ empCov T R X i i
    unfold empCov
    simp only [Matrix.of_apply]
    apply div_nonneg
    · exact Finset.sum_nonneg fun t _ => mul_self_nonneg _
    · exact Nat.cast_nonneg T
  · show precisionOf R (empCov T R X) i j = precisionOf R (empCov T R X) j i
    unfold precisionOf
    have hadj : Matrix.adjugate (empCov T R X)
        = Matrix.transpose (Matrix.adjugate (empCov T R X)) := by
      conv_lhs => rw [← empCov_transpose T R X]
      exact (Matrix.adjugate_transpose _).symm
    simp only [Matrix.smul_apply]
    have hsw : Matrix.adjugate (empCov T R X) i j
        = Matrix.adjugate (empCov T R X) j i := by
      conv_lhs => rw [hadj]
      rw [Matrix.transpose_apply]
    rw [hsw]

/-- Witness for C5: three observations of two regions. -/
def regionTSExample : Fin 3 → Fin 2 → ℚ :=
  fun t i => if i.val = 0 then (t.val : ℚ) else if t.val = 2 then 3 else (t.val : ℚ)

/-- Witness for C5 at `T = 3`, `R = 2`. -/
theorem C5_fitted_covariance_invariants_witness :
    2 < 3
    ∧ ((∀ i j, (fitGraphLasso 3 2 regionTSExample).covariance_ i j
        = (fitGraphLasso 3 2 regionTSExample).covariance_ j i)
      ∧ (∀ i, 0 ≤ (fitGraphLasso 3 2 regionTSExample).covariance_ i i)
      ∧ (∀ i j, (fitGraphLasso 3 2 regionTSExample).precision_ i j
          = (fitGraphLasso 3 2 regionTSExample).precision_ j i)) :=
  ⟨by norm_num, C5_fitted_covariance_invariants 3 2 regionTSExample (by norm_num)⟩

/-- C6: whenever the covariance output is invertible (nonzero determinant —
the regularized fit of the spec), the returned precision matrix is exactly
its two-sided matrix inverse. -/
theorem C6_precision_is_inverse_of_covariance (T R : Nat)
    (X : Fin T → Fin R → ℚ) (hdet : Matrix.det (empCov T R X) ≠ 0) :
    (fitGraphLasso T R X).precision_ * (fitGraphLasso T R X).covariance_ = 1
      ∧ (fitGraphLasso T R X).covariance_ * (fitGraphLasso T R X).precision_
        = 1 := by
  constructor
  · show precisionOf R (empCov T R X) * empCov T R X = 1
    unfold precisionOf
    rw [Matrix.smul_mul, Matrix.adjugate_mul, smul_smul,
      inv_mul_cancel₀ hdet, one_smul]
  · show empCov T R X * precisionOf R (empCov T R X) = 1
    unfold precisionOf
    rw [Matrix.mul_smul, Matrix.mul_adjugate, smul_smul,
      inv_mul_cancel₀ hdet, one_smul]

/-- Witness for C6 at `T = 3`, `R = 2`: the example covariance has
determinant `1/27`, and the precision output inverts it on both sides. -/
theorem C6_precision_is_inverse_of_covariance_witness :
    Matrix.det (empCov 3 2 regionTSExample) ≠ 0
    ∧ ((fitGraphLasso 3 2 regionTSExample).precision_
          * (fitGraphLasso 3 2 regionTSExample).covariance_ = 1
      ∧ (fitGraphLasso 3 2 regionTSExample).covariance_
          * (fitGraphLasso 3 2 regionTSExample).precision_ = 1) := by
  have hdet : Matrix.det (empCov 3 2 regionTSExample) ≠ 0 := by
    rw [Matrix.det_fin_two]
    simp [empCov, colMeanF, regionTSExample, Fin.sum_univ_three]
    norm_num
  exact ⟨hdet, C6_precision_is_inverse_of_covariance 3 2 regionTSExample hdet⟩

/-- Out-of-range `getD` returns the default. -/
theorem getD_of_le {α : Type} (l : List α) (i : Nat) (d : α)
    (h : l.length ≤ i) : l.getD i d = d := by
  induction l generalizing i with
  | nil => cases i <;> rfl
  | cons x xs ih =>
    cases i with
    | zero => simp at h
    | succ n => exact ih n (by simpa using h)

/-- `List.set` is the identity beyond the length. -/
theorem listSet_of_le {α : Type} (l : List α) (i : Nat) (v : α)
    (h : l.length ≤ i) : l.set i v = l := by
  induction l generalizing i with
  | nil => rfl
  | cons x xs ih =>
    cases i with
    | zero => simp at h
    | succ n => simp [List.set, ih n (by simpa using h)]

/-- Reading back the written index after `List.set`. -/
theorem getD_set_self {α : Type} (l : List α) (i : Nat) (v d : α)
    (hi : i < l.length) : (l.set i v).getD i d = v := by
  induction l generalizing i with
  | nil => simp at hi
  | cons x xs ih =>
    cases i with
    | zero => rfl
    | succ n => simpa [List.set] using ih n (by simpa using hi)

/-- Reading any other index after `List.set`. -/
theorem getD_set_ne {α : Type} (l : List α) (i j : Nat) (v d : α)
    (hij : i ≠ j) : (l.set i v).getD j d = l.getD j d := by
  induction l generalizing i j with
  | nil => rfl
  | cons x xs ih =>
    cases i with
    | zero =>
      cases j with
      | zero => exact absurd rfl hij
      | succ m => rfl
    | succ n =>
      cases j with
      | zero => rfl
      | succ m => simpa [List.set] using ih n m fun hh => hij (by omega)

/-- The in-place diagonal zeroing `prec[range(size), range(size)] = 0`
(src lines 39 to 40): entry `(i, i)` of every row `i` is set to zero. -/
def zeroDiag (m : List (List ℚ)) : List (List ℚ) :=
  mapIdxFrom (fun i row => mapIdxFrom (fun j x => if j = i then 0 else x) 0 row)
    0 m

/-- Every diagonal entry of the zeroed matrix reads zero. -/
theorem zeroDiag_diag (m : List (List ℚ)) (i : Nat) :
    ((zeroDiag m).getD i []).getD i 0 = 0 := by
  unfold zeroDiag
  by_cases hi : i < m.length
  · rw [getD_mapIdxFrom_lt _ 0 m i hi [] []]
    by_cases hj : i < (m.getD i []).length
    · rw [getD_mapIdxFrom_lt _ 0 (m.getD i []) i hj 0 0]
      simp
    · rw [getD_of_le _ _ _ (by rw [length_mapIdxFrom]; omega)]
  · have hlen : (mapIdxFrom
        (fun i row => mapIdxFrom (fun j x => if j = i then 0 else x) 0 row)
        0 m).length ≤ i := by
      rw [length_mapIdxFrom]
      omega
    rw [getD_of_le _ _ _ hlen]
    rfl

/-- numpy `min` over all entries of a (flattened) array; the empty array, on
which numpy raises, is given the junk value 0 — the claims never use it. -/
def listMin : List ℚ → ℚ
  | [] => 0
  | x :: xs => xs.foldl min x

/-- numpy `max`, same conventions as `listMin`. -/
def listMax : List ℚ → ℚ
  | [] => 0
  | x :: xs => xs.foldl max x

/-- Everything `plot_matrices` hands to the rendering library: the two
matrices passed to `imshow`, the color ranges, and the figure titles. -/
structure PlotResult where
  covShown : List (List ℚ)
  precShown : List (List ℚ)
  span : ℚ
  covVmin : ℚ
  covVmax : ℚ
  precVmin : ℚ
  precVmax : ℚ
  covTitle : String
  precTitle : String

/-- Shallow embedding of `plot_matrices` (src lines 35 to 66): zero the
diagonal of `prec` (for graph clarity, per the source comment), compute
`span = max(abs(prec.min()), abs(prec.max()))` on the zeroed matrix, prefix
the title with the subject index, and render the covariance with the fixed
range `[-1, 1]` and the zeroed precision with the symmetric range
`[-span, span]`. -/
def plot_matrices (cov prec : List (List ℚ)) (title : String) (n : Nat) :
    PlotResult :=
  let prec2 := zeroDiag prec
  let span := max |listMin prec2.flatten| |listMax prec2.flatten|
  let t2 := toString n ++ " " ++ title
  { covShown := cov, precShown := prec2, span := span,
    covVmin := -1, covVmax := 1, precVmin := -span, precVmax := span,
    covTitle := t2 ++ " / covariance", precTitle := t2 ++ " / precision" }

/-- Python ndarrays are heap objects passed by reference; the heap maps
reference indices to array contents (absent references read as the empty
array). -/
structure Heap where
  cells : List (List (List ℚ))

/-- Dereference. -/
def Heap.get (h : Heap) (r : Nat) : List (List ℚ) := h.cells.getD r []

/-- Overwrite a cell in place. -/
def Heap.set (h : Heap) (r : Nat) (v : List (List ℚ)) : Heap :=
  ⟨h.cells.set r v⟩

/-- Allocate a fresh cell. -/
def Heap.alloc (h : Heap) (v : List (List ℚ)) : Heap × Nat :=
  (⟨h.cells ++ [v]⟩, h.cells.length)

/-- `plot_matrices` with the aliasing of its arguments made explicit: the
`prec` argument is a reference whose cell is overwritten with the
diagonal-zeroed matrix (the line-40 in-place update); `cov` is only read. -/
def plotMatricesH (h : Heap) (covRef precRef : Nat) (title : String)
    (n : Nat) : Heap × PlotResult :=
  let prec := h.get precRef
  let h2 := h.set precRef (zeroDiag prec)
  (h2, plot_matrices (h2.get covRef) prec title n)

/-- Reading back a written heap cell. -/
theorem Heap.get_set_self (h : Heap) (r : Nat) (v : List (List ℚ))
    (hr : r < h.cells.length) : (h.set r v).get r = v :=
  getD_set_self h.cells r v [] hr

/-- Writing one heap cell leaves every other cell unchanged. -/
theorem Heap.get_set_other (h : Heap) (r r2 : Nat) (v : List (List ℚ))
    (hne : r ≠ r2) : (h.set r v).get r2 = h.get r2 :=
  getD_set_ne h.cells r r2 v [] hne

/-- Entrywise negation, `-arr` on an ndarray (a fresh array in numpy). -/
def negM (m : List (List ℚ)) : List (List ℚ) :=
  m.map fun row => row.map fun x => -x

/-- The hardcoded subject index of the script (src line 70). -/
def subject_n : Nat := 1

/-- The fitted attributes of the estimator that `__main__` reads:
`covariance_`, `precision_` and the selected regularization `alpha_`. -/
structure ScriptEstimator where
  covariance_ : List (List ℚ)
  precision_ : List (List ℚ)
  alpha_ : ℚ

/-- The final state of the display step. -/
structure MainResult where
  heap : Heap
  covRef : Nat
  precRef : Nat
  negRef : Nat
  plot : PlotResult

/-- Floor of a rational as an integer (`Int.fdiv` rounds toward minus
infinity). -/
def intFloorQ (q : ℚ) : ℤ := Int.fdiv q.num (q.den : ℤ)

/-- Round to the nearest integer, ties to even — the rounding Python float
formatting applies (floats modelled as exact rationals). -/
def roundHalfEven (q : ℚ) : ℤ :=
  if q - (intFloorQ q : ℚ) < 1/2 then intFloorQ q
  else if 1/2 < q - (intFloorQ q : ℚ) then intFloorQ q + 1
  else if intFloorQ q % 2 = 0 then intFloorQ q else intFloorQ q + 1

/-- One decimal digit character. -/
def digitCh (k : Nat) : Char := Nat.digitChar (k % 10)

/-- Exactly three zero-padded decimal digits of a number below 1000. -/
def pad3 (k : Nat) : String :=
  String.mk [digitCh (k / 100), digitCh (k / 10), digitCh k]

/-- The fixed-point formatting `format(alpha)` with format code `.3f`
applied at src line 109: sign, integer part, decimal point, and exactly
three digits after it. -/
def fmt3 (q : ℚ) : String :=
  (if roundHalfEven (q * 1000) < 0 then "-" else "")
    ++ toString ((roundHalfEven (q * 1000)).natAbs / 1000)
    ++ "." ++ pad3 ((roundHalfEven (q * 1000)).natAbs % 1000)

/-- Shallow model of the display tail of `__main__` (src lines 105 to 111):
the fitted arrays are heap objects; the title carries the selected alpha
formatted to three decimals; `-estimator.precision_` allocates a fresh
negated copy, and that copy is what `plot_matrices` receives and mutates;
the script ends with `pl.show()`, which takes no array — nothing after the
plot call reads any of the matrices. -/
def mainDisplay (est : ScriptEstimator) : MainResult :=
  let h0 : Heap := ⟨[]⟩
  let a1 := h0.alloc est.covariance_
  let a2 := a1.1.alloc est.precision_
  let a3 := a2.1.alloc (negM (a2.1.get a2.2))
  let res := plotMatricesH a3.1 a1.2 a3.2
    ("Graph Lasso CV (" ++ fmt3 est.alpha_ ++ ")") subject_n
  { heap := res.1, covRef := a1.2, precRef := a2.2, negRef := a3.2,
    plot := res.2 }

/-- C7: `plot_matrices` renders the diagonal-zeroed precision matrix (every
diagonal entry reads zero), with the color range exactly `[-span, span]`
where `span` is the larger of the absolute minimum and absolute maximum
entry of the zeroed matrix; the covariance is rendered unmodified with the
fixed range `[-1, 1]`; in the script the precision is sign-flipped before
display and the zeroing touches only that fresh copy — the estimator
arrays read back unchanged after the display step, so the zeroed values
feed no later step. -/
theorem C7_visualizer_ranges_and_rendering_only_zeroing
    (cov prec : List (List ℚ)) (title : String) (n : Nat)
    (est : ScriptEstimator) :
    (plot_matrices cov prec title n).precShown = zeroDiag prec
    ∧ (∀ i, ((plot_matrices cov prec title n).precShown.getD i []).getD i 0
        = 0)
    ∧ (plot_matrices cov prec title n).span
        = max |listMin (zeroDiag prec).flatten| |listMax (zeroDiag prec).flatten|
    ∧ (plot_matrices cov prec title n).precVmin
        = -(plot_matrices cov prec title n).span
    ∧ (plot_matrices cov prec title n).precVmax
        = (plot_matrices cov prec title n).span
    ∧ (plot_matrices cov prec title n).covShown = cov
    ∧ (plot_matrices cov prec title n).covVmin = -1
    ∧ (plot_matrices cov prec title n).covVmax = 1
    ∧ (mainDisplay est).plot.precShown = zeroDiag (negM est.precision_)
    ∧ (mainDisplay est).heap.get (mainDisplay est).precRef = est.precision_
    ∧ (mainDisplay est).heap.get (mainDisplay est).covRef = est.covariance_ :=
  ⟨rfl, fun i => zeroDiag_diag prec i, rfl, rfl, rfl, rfl, rfl, rfl, rfl,
    rfl, rfl⟩

/-- C8: the script runs the single hardcoded scenario `subject_n = 1`, and
both figure titles carry the subject index, the estimator name, and the
selected regularization coefficient formatted to exactly three decimal
places. -/
theorem C8_hardcoded_subject_and_three_decimal_titles
    (est : ScriptEstimator) :
    subject_n = 1
    ∧ (mainDisplay est).plot.covTitle
        = "1" ++ " " ++ ("Graph Lasso CV (" ++ fmt3 est.alpha_ ++ ")")
          ++ " / covariance"
    ∧ (mainDisplay est).plot.precTitle
        = "1" ++ " " ++ ("Graph Lasso CV (" ++ fmt3 est.alpha_ ++ ")")
          ++ " / precision"
    ∧ fmt3 est.alpha_
        = (if roundHalfEven (est.alpha_ * 1000) < 0 then "-" else "")
          ++ toString ((roundHalfEven (est.alpha_ * 1000)).natAbs / 1000)
          ++ "." ++ pad3 ((roundHalfEven (est.alpha_ * 1000)).natAbs % 1000)
    ∧ (pad3 ((roundHalfEven (est.alpha_ * 1000)).natAbs % 1000)).length = 3 :=
  ⟨rfl, rfl, rfl, rfl, rfl⟩

/-- Absent heap cells read as the empty array. -/
theorem Heap.get_of_le (h : Heap) (r : Nat) (hr : h.cells.length ≤ r) :
    h.get r = [] :=
  getD_of_le _ _ _ hr

/-- Writing an absent cell is a no-op. -/
theorem Heap.set_of_le (h : Heap) (r : Nat) (v : List (List ℚ))
    (hr : h.cells.length ≤ r) : h.set r v = h := by
  unfold Heap.set
  rw [listSet_of_le h.cells r v hr]

/-- C10: `plot_matrices` overwrites, in place, the array its `prec`
reference names with the diagonal-zeroed matrix, while the `cov` cell is
untouched; in the script the overwritten cell is the freshly allocated
negated copy `-estimator.precision_`, so the estimator arrays themselves
read back unmodified after the display step. -/
theorem C10_prec_mutated_in_place_cov_untouched (h : Heap)
    (covRef precRef : Nat) (title : String) (n : Nat)
    (est : ScriptEstimator) (hne : covRef ≠ precRef) :
    (plotMatricesH h covRef precRef title n).1.get precRef
        = zeroDiag (h.get precRef)
    ∧ (plotMatricesH h covRef precRef title n).1.get covRef = h.get covRef
    ∧ (mainDisplay est).heap.get (mainDisplay est).negRef
        = zeroDiag (negM est.precision_)
    ∧ (mainDisplay est).heap.get (mainDisplay est).precRef = est.precision_
    ∧ (mainDisplay est).heap.get (mainDisplay est).covRef
        = est.covariance_ := by
  refine ⟨?_, ?_, rfl, rfl, rfl⟩
  · show (h.set precRef (zeroDiag (h.get precRef))).get precRef
        = zeroDiag (h.get precRef)
    by_cases hr : precRef < h.cells.length
    · exact Heap.get_set_self h precRef _ hr
    · rw [Heap.set_of_le h precRef _ (by omega),
        Heap.get_of_le h precRef (by omega)]
      rfl
  · show (h.set precRef (zeroDiag (h.get precRef))).get covRef
        = h.get covRef
    exact Heap.get_set_other h precRef covRef _ (Ne.symm hne)

/-- Witness for C10: a two-cell heap, distinct references. -/
theorem C10_prec_mutated_in_place_cov_untouched_witness :
    (0 : Nat) ≠ 1
    ∧ ((plotMatricesH ⟨[[[1]], [[2]]]⟩ 0 1 "t" 0).1.get 1
        = zeroDiag ((⟨[[[1]], [[2]]]⟩ : Heap).get 1)
      ∧ (plotMatricesH ⟨[[[1]], [[2]]]⟩ 0 1 "t" 0).1.get 0
          = (⟨[[[1]], [[2]]]⟩ : Heap).get 0
      ∧ (mainDisplay ⟨[[3]], [[4]], 1/2⟩).heap.get
          (mainDisplay ⟨[[3]], [[4]], 1/2⟩).negRef
        = zeroDiag (negM ([[4]] : List (List ℚ)))
      ∧ (mainDisplay ⟨[[3]], [[4]], 1/2⟩).heap.get
          (mainDisplay ⟨[[3]], [[4]], 1/2⟩).precRef = [[4]]
      ∧ (mainDisplay ⟨[[3]], [[4]], 1/2⟩).heap.get
          (mainDisplay ⟨[[3]], [[4]], 1/2⟩).covRef = [[3]]) :=
  ⟨by omega,
    C10_prec_mutated_in_place_cov_untouched ⟨[[[1]], [[2]]]⟩ 0 1 "t" 0
      ⟨[[3]], [[4]], 1/2⟩ (by omega)⟩

/-- Top-level statements of the module, in source order. -/
inductive TopStmt
  | importLib (name : String)
  | assignBwrData
  | registerCmap (name : String)
  | defPlotMatrices
  | mainGuard

/-- The module body (src lines 15 to 111): the nine imports, the
`_bwr_data` assignment (line 30), the `register_cmap` call (lines 31 to
32), the definition of `plot_matrices`, and the guarded `__main__` block.
Every function call of the script happens inside the guarded block. -/
def moduleStmts : List TopStmt :=
  [TopStmt.importLib "numpy", TopStmt.importLib "pylab",
   TopStmt.importLib "matplotlib", TopStmt.importLib "sklearn.covariance",
   TopStmt.importLib "nibabel", TopStmt.importLib "nisl.signals",
   TopStmt.importLib "nisl.masking", TopStmt.importLib "nisl.region",
   TopStmt.importLib "nisl.datasets",
   TopStmt.assignBwrData, TopStmt.registerCmap "bwr",
   TopStmt.defPlotMatrices, TopStmt.mainGuard]

/-- The control points of the custom diverging colormap (src line 30):
blue, white, red. -/
def _bwr_data : List (ℚ × ℚ × ℚ) := [(0, 0, 1), (1, 1, 1), (1, 0, 0)]

/-- The process-wide colormap registry of the plotting library, mapping
registered names to colormap data. -/
abbrev Registry := List (String × List (ℚ × ℚ × ℚ))

/-- Effect of one top-level statement on the registry.
`pl.cm.register_cmap` (src lines 31 to 32) is the only statement that
writes it; on import the `__main__` guard is false, so `mainGuard`
contributes nothing. -/
def execStmt (reg : Registry) : TopStmt → Registry
  | TopStmt.registerCmap nm => (nm, _bwr_data) :: reg
  | _ => reg

/-- Running the module body, i.e. what `import` executes. -/
def moduleImport (reg : Registry) : Registry := moduleStmts.foldl execStmt reg

/-- Registry lookup; the most recent registration wins, as in matplotlib. -/
def lookupCmap (reg : Registry) (nm : String) : Option (List (ℚ × ℚ × ℚ)) :=
  (reg.find? fun p => p.1 == nm).map Prod.snd

/-- C9: importing the module registers the custom diverging blue-white-red
colormap under the name "bwr" into the shared process-wide registry —
whatever the registry held before — as a module-level side effect: the
registering statement precedes the guarded main block, which is the only
place any function of the script is called. -/
theorem C9_bwr_registered_as_import_side_effect (reg : Registry) :
    lookupCmap (moduleImport reg) "bwr" = some _bwr_data
    ∧ _bwr_data = [(0, 0, 1), (1, 1, 1), (1, 0, 0)]
    ∧ moduleStmts.get? 10 = some (TopStmt.registerCmap "bwr")
    ∧ moduleStmts.get? 12 = some TopStmt.mainGuard
    ∧ (10 : Nat) < 12 :=
  ⟨rfl, rfl, rfl, rfl, by omega⟩
